import Mathlib

/-!
Verification of the asmdoc core: the NASM recursive-descent parser
(`src/syntax/nasm.rs`) and the project symbol resolver
(`src/assembly_project.rs`), shallowly embedded over the token stream.

The embedding starts from the token stream: `new_parser` in the source
lexes the text with logos and drops `Whitespace` tokens before parsing,
so the parser proper is a function of a `List NASMToken`.  Concrete
source texts appearing in claims are rendered as the token lists the
logos lexer produces for them (each such list is a named definition
whose doc comment spells out the lexing).  Source-location and
rule-trace data, which the parser threads only into diagnostics and
never branches on, are omitted; the error *kind* (`NASMParseErrorType`)
is modelled exactly.

Rust collections are modelled as follows: `Vec` as `List`; `HashSet` as
a duplicate-free `List` (insertion via `insertSet`); `HashMap` and
`LinkedHashMap` as association lists with `mapInsert` replacing the
value of an existing key in place and appending new keys.  Iteration
order over a `HashMap` is unspecified in Rust; theorems about
order-sensitive spots therefore quantify over the iteration order
(the association list order).
-/

namespace Asmdoc

/-! ## Token grammar (src/syntax/nasm.rs, `NASMTokenType`) -/

/-- Token kinds of the NASM grammar, one constructor per variant of the
Rust `NASMTokenType` enum.  The `%macro` and `%endmacro` keyword tokens
are named `MacroKeyword` and `EndMacroKeyword` here (the Rust variants
are `Macro` and `EndMacro`). -/
inductive NASMTokenType where
  | Bits
  | Section
  | Global
  | Extern
  | QWord
  | DWord
  | Include
  | Define
  | MacroKeyword
  | Mnemonic
  | EndMacroKeyword
  | MacroCall
  | MacroArg
  | Register
  | Symbol
  | CurrentPosition
  | Number
  | String
  | Comment
  | Colon
  | Comma
  | LeftBracket
  | RightBracket
  | Plus
  | Minus
  | Asterisk
  | Slash
  | BitNot
  | BitOr
  | BitXor
  | BitAnd
  | LeftParen
  | RightParen
  | Newline
  | Whitespace
  | EOF
  deriving DecidableEq, Repr

/-- A lexed token: its kind and its exact source substring (the Rust
`NASMToken` without the span and source location, which the parser uses
only for diagnostics). -/
structure NASMToken where
  ty : NASMTokenType
  value : String
  deriving DecidableEq, Repr

/-- The kind of a parse error, exactly the Rust `NASMParseErrorType`
(the rule trace attached alongside it in `NASMParseError` is purely
diagnostic and omitted). -/
inductive NASMParseErrorType where
  | InvalidInput
  | UnexpectedEOF
  | Unexpected (expected : NASMTokenType)
      (received : Option (NASMTokenType × String))
  | InvalidSyntax
  deriving DecidableEq, Repr

/-! ## File model (src/assembly_file.rs) -/

/-- The `AssemblySection` enum. -/
inductive AssemblySection where
  | Text
  | Data
  | BSS
  | ROData
  deriving DecidableEq, Repr

/-- The `AssemblyItem` enum.  `Mnemonic()` carries no data;
`MacroCall` carries the call name and an argument list (always empty in
the current parser). -/
inductive AssemblyItem where
  | Label (name : String)
  | Mnemonic
  | MacroCall (name : String) (args : List AssemblyItem)

/-- The `AssemblyMacro` struct: name, formal argument count, and body
(left empty by the parser). -/
structure AssemblyMacro where
  name : String
  arg_count : Nat
  body : List AssemblyItem

/-- The `AssemblyFile` struct.  `globals` is a `HashSet<String>` in
Rust, modelled as a duplicate-free list; `sections` is a
`HashMap<AssemblySection, Vec<AssemblyItem>>`, modelled as an
association list.  Paths are modelled as strings. -/
structure AssemblyFile where
  bits : Nat
  includes : List String
  globals : List String
  externs : List String
  macros : List AssemblyMacro
  defines : List String
  sections : List (AssemblySection × List AssemblyItem)

/-- `AssemblyFile::default()`: 64 bits and empty collections. -/
def AssemblyFile.default : AssemblyFile :=
  { bits := 64
    includes := []
    globals := []
    externs := []
    macros := []
    defines := []
    sections := [] }

/-! ## Association-list models of the Rust map types -/

/-- `HashSet::insert`: add `x` unless already present.  (A `HashSet`
has no meaningful order; the list order records insertion order, one
admissible iteration order.) -/
def insertSet (s : List String) (x : String) : List String :=
  if x ∈ s then s else s ++ [x]

/-- Map insertion for the association-list model of `HashMap` and
`LinkedHashMap`: an existing key's value is replaced (kept at its
position), a new key is appended.  No theorem below observes the order
of entries, only lookups, so the key-to-value behaviour — which both
Rust maps share — is all that is relied upon. -/
def mapInsert {α β : Type} [DecidableEq α] :
    List (α × β) → α → β → List (α × β)
  | [], k, v => [(k, v)]
  | (k', v') :: rest, k, v =>
      if k' = k then (k', v) :: rest else (k', v') :: mapInsert rest k v

/-- Map lookup for the association-list model (`HashMap::get`,
`LinkedHashMap::get`). -/
def mapLookup {α β : Type} [DecidableEq α] :
    List (α × β) → α → Option β
  | [], _ => none
  | (k', v) :: rest, k => if k' = k then some v else mapLookup rest k

/-! ## Parser state and token-stream helpers (src/syntax/nasm.rs) -/

/-- The mutable parser state threaded through the rules: the file model
under construction and the active section (`NASM::asm`,
`NASM::current_section`).  The remaining token stream is passed
separately (the Rust parser keeps the full vector and a cursor `pos`;
only the tokens at and after `pos` are ever read). -/
structure ParserState where
  asm : AssemblyFile
  currentSection : AssemblySection

/-- Result of one grammar rule: a parse-error kind, or the remaining
tokens and updated state (the Rust rules mutate `self` and return
`Result<(), NASMParseError>`). -/
abbrev RuleResult := Except NASMParseErrorType (List NASMToken × ParserState)

/-- `NASM::expect`: at end of input, `Unexpected {expected, received:
None}`; otherwise take the current token, succeeding exactly when its
kind matches. -/
def expect (expected : NASMTokenType) :
    List NASMToken → Except NASMParseErrorType (NASMToken × List NASMToken)
  | [] => .error (.Unexpected expected none)
  | t :: rest =>
      if t.ty = expected then .ok (t, rest)
      else .error (.Unexpected expected (some (t.ty, t.value)))

/-- `NASM::skip`: advance past `Newline` and `Whitespace` tokens. -/
def skip : List NASMToken → List NASMToken
  | [] => []
  | t :: rest =>
      if t.ty = .Newline ∨ t.ty = .Whitespace then skip rest else t :: rest

/-- The discard loop `while !self.is_eof() && self.current().ty !=
Newline { self.advance() }` used by the mnemonic, macro-call and define
rules: drop tokens up to (not including) the next newline. -/
def skipToNewline : List NASMToken → List NASMToken
  | [] => []
  | t :: rest => if t.ty = .Newline then t :: rest else skipToNewline rest

/-- The discard loop of `rule_macro_definition`: drop tokens up to (not
including) the next `%endmacro` token; the body is never inspected. -/
def skipToMacroEnd : List NASMToken → List NASMToken
  | [] => []
  | t :: rest =>
      if t.ty = .EndMacroKeyword then t :: rest else skipToMacroEnd rest

/-- `NASM::peek_is`: whether the token after the current one has the
given kind (`rest` holds the tokens after the current token). -/
def peek_is (rest : List NASMToken) (ty : NASMTokenType) : Bool :=
  match rest with
  | t :: _ => t.ty = ty
  | [] => false

/-- `str::starts_with(pre)`: whether `pre`'s characters are a prefix
of `s`'s (stated on the character lists so that it computes by
unfolding). -/
def strStartsWith (s pre : String) : Bool :=
  pre.data.isPrefixOf s.data

/-- The numeric value of a list of decimal digits (most significant
first), `none` as soon as a non-digit appears. -/
def digitsVal? : List Char → Nat → Option Nat
  | [], acc => some acc
  | c :: rest, acc =>
      if '0' ≤ c ∧ c ≤ '9' then digitsVal? rest (acc * 10 + (c.toNat - 48))
      else none

/-- `str::parse::<usize>` on a token's text (64-bit target): an
optional `+` sign, then one or more decimal digits whose value fits in
64 bits; `none` otherwise.  `Number` tokens are all-digit by the lexer
regex, so only overflow can fail on parser input. -/
def parse_usize (s : String) : Option Nat :=
  let ds := match s.data with
    | '+' :: rest => rest
    | l => l
  match ds with
  | [] => none
  | _ =>
    match digitsVal? ds 0 with
    | some n => if n < 2 ^ 64 then some n else none
    | none => none

/-- `str::to_ascii_lowercase`: lowercase ASCII letters, leave every
other character unchanged. -/
def toAsciiLower (s : String) : String :=
  ⟨s.data.map fun c =>
    if 'A' ≤ c ∧ c ≤ 'Z' then Char.ofNat (c.toNat + 32) else c⟩

/-- The section-name match inside `rule_section`: the symbol's
ASCII-lowercased text selects the section, any other text selects
none. -/
def sectionOfName (s : String) : Option AssemblySection :=
  match toAsciiLower s with
  | ".text" => some .Text
  | ".data" => some .Data
  | ".rodata" => some .ROData
  | ".bss" => some .BSS
  | _ => none

/-- `NASM::current_section()`:
`self.asm.sections.entry(self.current_section).or_default()` followed
by a `push` — append the item to the active section's list, creating
the entry if absent. -/
def pushItem (secs : List (AssemblySection × List AssemblyItem))
    (k : AssemblySection) (it : AssemblyItem) :
    List (AssemblySection × List AssemblyItem) :=
  match secs with
  | [] => [(k, [it])]
  | (s, items) :: rest =>
      if s = k then (s, items ++ [it]) :: rest
      else (s, items) :: pushItem rest k it

/-! ## Grammar rules (src/syntax/nasm.rs, the `rules!` block)

Each Rust rule is wrapped by the `rules!` macro, which fails with
`UnexpectedEOF` when entered at end of input and otherwise pushes/pops
the diagnostic rule trace (omitted here) around the body. -/

/-- `rule bits`: keyword, then a numeric literal setting `asm.bits`;
`InvalidSyntax` when the literal does not parse as `usize`. -/
def rule_bits (ts : List NASMToken) (st : ParserState) : RuleResult :=
  if ts.isEmpty then .error .UnexpectedEOF else
  match expect .Bits ts with
  | .error e => .error e
  | .ok (_, ts) =>
    match expect .Number ts with
    | .error e => .error e
    | .ok (tok, ts) =>
      match parse_usize tok.value with
      | some n => .ok (ts, { st with asm := { st.asm with bits := n } })
      | none => .error .InvalidSyntax

/-- `rule section`: keyword, then a symbol whose lowercased text names
a section (otherwise `InvalidSyntax`); sets the active section, then
requires a newline. -/
def rule_section (ts : List NASMToken) (st : ParserState) : RuleResult :=
  if ts.isEmpty then .error .UnexpectedEOF else
  match expect .Section ts with
  | .error e => .error e
  | .ok (_, ts) =>
    match expect .Symbol ts with
    | .error e => .error e
    | .ok (nameTok, ts) =>
      match sectionOfName nameTok.value with
      | none => .error .InvalidSyntax
      | some sec =>
        match expect .Newline ts with
        | .error e => .error e
        | .ok (_, ts) => .ok (ts, { st with currentSection := sec })

/-- `rule label`: a symbol and a colon; appends a `Label` item to the
active section.  No trailing newline is required. -/
def rule_label (ts : List NASMToken) (st : ParserState) : RuleResult :=
  if ts.isEmpty then .error .UnexpectedEOF else
  match expect .Symbol ts with
  | .error e => .error e
  | .ok (nameTok, ts) =>
    match expect .Colon ts with
    | .error e => .error e
    | .ok (_, ts) =>
      .ok (ts, { st with asm := { st.asm with
        sections :=
          pushItem st.asm.sections st.currentSection
            (.Label nameTok.value) } })

/-- `rule mnemonic`: the mnemonic token, then discard to the next
newline (operands are opaque) and require the newline. -/
def rule_mnemonic (ts : List NASMToken) (st : ParserState) : RuleResult :=
  if ts.isEmpty then .error .UnexpectedEOF else
  match expect .Mnemonic ts with
  | .error e => .error e
  | .ok (_, ts) =>
    match expect .Newline (skipToNewline ts) with
    | .error e => .error e
    | .ok (_, ts) => .ok (ts, st)

/-- `rule global`: keyword, a symbol and a newline; inserts the name
into the file's global set. -/
def rule_global (ts : List NASMToken) (st : ParserState) : RuleResult :=
  if ts.isEmpty then .error .UnexpectedEOF else
  match expect .Global ts with
  | .error e => .error e
  | .ok (_, ts) =>
    match expect .Symbol ts with
    | .error e => .error e
    | .ok (nameTok, ts) =>
      match expect .Newline ts with
      | .error e => .error e
      | .ok (_, ts) =>
        .ok (ts, { st with asm := { st.asm with
          globals := insertSet st.asm.globals nameTok.value } })

/-- `rule extern`: keyword, a symbol and a newline; appends the name to
the file's extern list. -/
def rule_extern_decl (ts : List NASMToken) (st : ParserState) : RuleResult :=
  if ts.isEmpty then .error .UnexpectedEOF else
  match expect .Extern ts with
  | .error e => .error e
  | .ok (_, ts) =>
    match expect .Symbol ts with
    | .error e => .error e
    | .ok (nameTok, ts) =>
      match expect .Newline ts with
      | .error e => .error e
      | .ok (_, ts) =>
        .ok (ts, { st with asm := { st.asm with
          externs := st.asm.externs ++ [nameTok.value] } })

/-- `rule include`: keyword, a string literal and a newline; strips the
literal's first and last character (the quotes, one byte each) and
appends the path. -/
def rule_include (ts : List NASMToken) (st : ParserState) : RuleResult :=
  if ts.isEmpty then .error .UnexpectedEOF else
  match expect .Include ts with
  | .error e => .error e
  | .ok (_, ts) =>
    match expect .String ts with
    | .error e => .error e
    | .ok (pathTok, ts) =>
      match expect .Newline ts with
      | .error e => .error e
      | .ok (_, ts) =>
        .ok (ts, { st with asm := { st.asm with
          includes :=
            st.asm.includes ++ [(pathTok.value.drop 1).dropRight 1] } })

/-- `rule macro_definition`: keyword, a macro-call-style name token, a
numeric argument count (`InvalidSyntax` when it does not parse as
`usize`), then discard every token up to the `%endmacro` token without
inspecting it, consume the `%endmacro`, and append a macro record with
an empty body. -/
def rule_macro_definition (ts : List NASMToken) (st : ParserState) :
    RuleResult :=
  if ts.isEmpty then .error .UnexpectedEOF else
  match expect .MacroKeyword ts with
  | .error e => .error e
  | .ok (_, ts) =>
    match expect .MacroCall ts with
    | .error e => .error e
    | .ok (nameTok, ts) =>
      match expect .Number ts with
      | .error e => .error e
      | .ok (countTok, ts) =>
        match parse_usize countTok.value with
        | none => .error .InvalidSyntax
        | some arg_count =>
          match expect .EndMacroKeyword (skipToMacroEnd ts) with
          | .error e => .error e
          | .ok (_, ts) =>
            .ok (ts, { st with asm := { st.asm with
              macros := st.asm.macros ++
                [{ name := nameTok.value, arg_count, body := [] }] } })

/-- `rule macro_call`: the call token, discard to the next newline,
require the newline; appends a `MacroCall` item (empty argument list)
to the active section. -/
def rule_macro_call (ts : List NASMToken) (st : ParserState) : RuleResult :=
  if ts.isEmpty then .error .UnexpectedEOF else
  match expect .MacroCall ts with
  | .error e => .error e
  | .ok (nameTok, ts) =>
    match expect .Newline (skipToNewline ts) with
    | .error e => .error e
    | .ok (_, ts) =>
      .ok (ts, { st with asm := { st.asm with
        sections :=
          pushItem st.asm.sections st.currentSection
            (.MacroCall nameTok.value []) } })

/-- `rule define`: keyword and a symbol, discard to the next newline,
require the newline; records the define name. -/
def rule_define (ts : List NASMToken) (st : ParserState) : RuleResult :=
  if ts.isEmpty then .error .UnexpectedEOF else
  match expect .Define ts with
  | .error e => .error e
  | .ok (_, ts) =>
    match expect .Symbol ts with
    | .error e => .error e
    | .ok (nameTok, ts) =>
      match expect .Newline (skipToNewline ts) with
      | .error e => .error e
      | .ok (_, ts) =>
        .ok (ts, { st with asm := { st.asm with
          defines := st.asm.defines ++ [nameTok.value] } })

/-! ## Top-level dispatch and parse loop (`NASM::parse`) -/

/-- One arm of the top-level `match self.current().ty` dispatch: `t` is
the current token, `rest` the tokens after it.  A `Symbol` is routed to
the label rule only under the one-token colon lookahead; a `Comment` is
skipped with no other effect; every unrouted kind is `InvalidSyntax`. -/
def stepRule (t : NASMToken) (rest : List NASMToken) (st : ParserState) :
    RuleResult :=
  match t.ty with
  | .Bits => rule_bits (t :: rest) st
  | .Section => rule_section (t :: rest) st
  | .Symbol =>
      if peek_is rest .Colon then rule_label (t :: rest) st
      else .error .InvalidSyntax
  | .Mnemonic => rule_mnemonic (t :: rest) st
  | .Global => rule_global (t :: rest) st
  | .Extern => rule_extern_decl (t :: rest) st
  | .MacroKeyword => rule_macro_definition (t :: rest) st
  | .MacroCall => rule_macro_call (t :: rest) st
  | .Comment => .ok (rest, st)
  | .Include => rule_include (t :: rest) st
  | .Define => rule_define (t :: rest) st
  | _ => .error .InvalidSyntax

/-- The `while !self.is_eof()` loop of `NASM::parse`: skip blank
tokens, stop successfully at end of input, otherwise dispatch one rule
and continue.  The loop consumes at least one token per iteration, so
`fuel` bounds only the iteration count, never the semantics:
`parseLoop_congr` below proves the result is the same for every
`fuel > ts.length`, and `parse` always supplies such a fuel, so the
fuel-exhaustion branch (arbitrarily `InvalidInput`) is unreachable. -/
def parseLoop : Nat → List NASMToken → ParserState →
    Except NASMParseErrorType AssemblyFile
  | 0, _, _ => .error .InvalidInput
  | fuel + 1, ts, st =>
    match skip ts with
    | [] => .ok st.asm
    | t :: rest =>
      match stepRule t rest st with
      | .error e => .error e
      | .ok (ts', st') => parseLoop fuel ts' st'

/-- `NASM::parse` on an already-lexed token stream (whitespace tokens
removed, as `new_parser` removes them): run the loop from the default
file model with `Text` as the initial active section. -/
def parse (ts : List NASMToken) : Except NASMParseErrorType AssemblyFile :=
  parseLoop (ts.length + 1) ts
    { asm := AssemblyFile.default, currentSection := .Text }

/-- Observer of the `parseLoop` iteration, introducing no behaviour of
its own: it repeats `parseLoop`'s skip/dispatch steps verbatim (same
fuel discipline) but stops and returns the remaining stream and the
parser state at the moment the loop first dispatches a `Section` token
— that is, immediately before the first `section` directive of the
file is parsed — and returns `none` when the loop terminates, fails,
or exhausts its fuel without ever dispatching one.
`firstSectionState_spec` couples it to the run of `parseLoop`: on a
successful parse, the reported pair is an actual intermediate state of
the run.  It exists to state the initial-active-section claim for
files that do contain a `section` directive. -/
def firstSectionState : Nat → List NASMToken → ParserState →
    Option (List NASMToken × ParserState)
  | 0, _, _ => none
  | fuel + 1, ts, st =>
    match skip ts with
    | [] => none
    | t :: rest =>
      if t.ty = .Section then some (t :: rest, st)
      else
        match stepRule t rest st with
        | .error _ => none
        | .ok (ts', st') => firstSectionState fuel ts' st'

/-! ## Docs-level visibility (src/docs.rs) -/

/-- The `Visibility` enum from src/docs.rs. -/
inductive Visibility where
  | Global
  | Private
  | External
  deriving DecidableEq, Repr

/-! ## Project resolver (src/assembly_project.rs) -/

/-- A per-file symbol table: the `LinkedHashMap<String, (Visibility,
Option<AssemblySection>)>` of `AssemblyProject::symbols`, as an
insertion-ordered association list. -/
abbrev SymbolTable := List (String × (Visibility × Option AssemblySection))

/-- The `AssemblyProject` struct.  Paths are strings; every `HashMap`
is an association list whose order stands for one iteration order of
the unordered Rust map. -/
structure AssemblyProject where
  files : List (String × AssemblyFile)
  symbols : List (String × SymbolTable)
  global_sources : List (String × String)
  internal_externs : List (String × String)
  symbol_constituents : List (String × List String)

/-- `AssemblyProject` before `resolve`: the given files and the
`Default` (empty) derived tables. -/
def emptyProject (files : List (String × AssemblyFile)) : AssemblyProject :=
  { files := files
    symbols := []
    global_sources := []
    internal_externs := []
    symbol_constituents := [] }

/-- The first loop of `resolve`: for every file and every name in its
global set, record `global_sources[name] = file` (later files
overwrite on collision). -/
def collectGlobals (files : List (String × AssemblyFile))
    (gs : List (String × String)) : List (String × String) :=
  files.foldl
    (fun gs entry =>
      entry.2.globals.foldl (fun gs g => mapInsert gs g entry.1) gs)
    gs

/-- The flattened `for (section, items) in &asm.sections { for item in
items }` scan order: every item paired with its section, sections in
the given iteration order, items in list order within a section. -/
def sectionItems (secs : List (AssemblySection × List AssemblyItem)) :
    List (AssemblySection × AssemblyItem) :=
  (secs.map fun p => p.2.map fun it => (p.1, it)).flatten

/-- The rolling state of the per-file item scan in `resolve`: the
file's symbol table under construction, the project-wide
`symbol_constituents`, and the `current_label` accumulator. -/
structure ScanAcc where
  local_symbols : SymbolTable
  constituents : List (String × List String)
  currentLabel : String

/-- `self.symbol_constituents.entry(current_label).or_default()
.push(label)`: append to the key's list, creating it if absent. -/
def constituentsPush (m : List (String × List String)) (k v : String) :
    List (String × List String) :=
  match mapLookup m k with
  | some l => mapInsert m k (l ++ [v])
  | none => m ++ [(k, [v])]

/-- One step of the item scan in `resolve`: only `Label` items act.  A
dotted label is appended to the current label's constituents (the
current label is unchanged); any other label becomes the current label
and is inserted into the file's table as `Global` when the file's
global set contains it, `Private` otherwise, tagged with its
section. -/
def scanItem (globals : List String) (acc : ScanAcc) :
    AssemblySection × AssemblyItem → ScanAcc
  | (sec, item) =>
    match item with
    | .Label label =>
      if strStartsWith label "." then
        { acc with constituents :=
            constituentsPush acc.constituents acc.currentLabel label }
      else
        { local_symbols :=
            mapInsert acc.local_symbols label
              ((if label ∈ globals then Visibility.Global
                else Visibility.Private), some sec)
          constituents := acc.constituents
          currentLabel := label }
    | _ => acc

/-- The body of the second `resolve` loop for one `(file, asm)` entry:
resolve the file's externs against `global_sources` into
`internal_externs`; fetch (or create empty) the file's symbol table;
insert every extern as `External` with no section; then scan the
file's items with `current_label` starting empty, and store the
resulting table and constituents. -/
def resolveFileStep (gs : List (String × String)) (acc : AssemblyProject)
    (entry : String × AssemblyFile) : AssemblyProject :=
  let ie := entry.2.externs.foldl
    (fun ie ex =>
      match mapLookup gs ex with
      | some gfile => mapInsert ie ex gfile
      | none => ie)
    acc.internal_externs
  let tbl := entry.2.externs.foldl
    (fun t ex => mapInsert t ex (Visibility.External, none))
    ((mapLookup acc.symbols entry.1).getD [])
  let scan := (sectionItems entry.2.sections).foldl
    (scanItem entry.2.globals)
    { local_symbols := tbl
      constituents := acc.symbol_constituents
      currentLabel := "" }
  { acc with
    internal_externs := ie
    symbols := mapInsert acc.symbols entry.1 scan.local_symbols
    symbol_constituents := scan.constituents }

/-- `AssemblyProject::resolve`: collect `global_sources` over all
files, then run the per-file pass over all files. -/
def resolve (p : AssemblyProject) : AssemblyProject :=
  let gs := collectGlobals p.files p.global_sources
  p.files.foldl (resolveFileStep gs) { p with global_sources := gs }

/-- `AssemblyProject::build_from`: a project from the parsed file
models, resolved once. -/
def build_from (files : List (String × AssemblyFile)) : AssemblyProject :=
  resolve (emptyProject files)

/-! ## Concrete token streams and file models named in the claims -/

/-- The token stream of the source text `global\n`: the lexer matches
the keyword token `global` (a `#[token]` literal, taking priority over
the `Symbol` regex) and the significant newline; no whitespace
intervenes. -/
def tokensGlobalNewline : List NASMToken :=
  [⟨.Global, "global"⟩, ⟨.Newline, "\n"⟩]

/-- The token stream of the source text `section .bogus\n`: the
`section` keyword, the symbol `.bogus` (the `Symbol` regex
`[a-zA-Z_.][a-zA-Z0-9_.$]*` is the only match), and the newline; the
blank between them lexes as `Whitespace`, which `new_parser`
discards. -/
def tokensSectionBogus : List NASMToken :=
  [⟨.Section, "section"⟩, ⟨.Symbol, ".bogus"⟩, ⟨.Newline, "\n"⟩]

/-- The token stream of the source text `%macro foo 2\n%endmacro\n`:
`%macro` and `%endmacro` lex as their keyword tokens, `2` as `Number`,
and `foo` as `Symbol` — not as `MacroCall`, whose regex
`\$[a-zA-Z0-9_.]+` requires a `$` sigil. -/
def tokensMacroFoo : List NASMToken :=
  [⟨.MacroKeyword, "%macro"⟩, ⟨.Symbol, "foo"⟩, ⟨.Number, "2"⟩,
   ⟨.Newline, "\n"⟩, ⟨.EndMacroKeyword, "%endmacro"⟩, ⟨.Newline, "\n"⟩]

/-- The token run of one label line `name:\n`: the label symbol, the
colon, and the line's newline. -/
def labelTokens (names : List String) : List NASMToken :=
  (names.map fun n => [⟨.Symbol, n⟩, ⟨.Colon, ":"⟩, ⟨.Newline, "\n"⟩]).flatten

/-- The token stream of a file holding only `section .text` and then
one `name:` line per name. -/
def c4tokens (names : List String) : List NASMToken :=
  ⟨.Section, "section"⟩ :: ⟨.Symbol, ".text"⟩ :: ⟨.Newline, "\n"⟩ ::
    labelTokens names

/-- The file model that parsing `c4tokens names` produces: the default
model with one `Label` item per name pushed into the `Text` section (no
entry at all when `names` is empty). -/
def c4result (names : List String) : AssemblyFile :=
  { AssemblyFile.default with
    sections := names.foldl
      (fun s n => pushItem s AssemblySection.Text (.Label n)) [] }

/-- File model A of the visibility-classification scenario: declares
`global foo` and defines the label `foo` in section `sec` (the parse of
`global foo` + `foo:` under `section` directive `sec`). -/
def c1fileA (sec : AssemblySection) : AssemblyFile :=
  { AssemblyFile.default with
    globals := ["foo"]
    sections := [(sec, [.Label "foo"])] }

/-- File model B of the visibility-classification scenario: only
`extern foo`. -/
def c1fileB : AssemblyFile :=
  { AssemblyFile.default with externs := ["foo"] }

/-- A file model with the given sections and nothing else — the parse
of a file holding only labels under section directives. -/
def labelOnlyFile (secs : List (AssemblySection × List AssemblyItem)) :
    AssemblyFile :=
  { AssemblyFile.default with sections := secs }

/-- The counterexample file for the unresolved-extern claim: it
declares `extern foo` and also defines the non-dotted label `foo`
(source `extern foo` followed by `foo:`), with no global anywhere. -/
def c5file : AssemblyFile :=
  { AssemblyFile.default with
    externs := ["foo"]
    sections := [(.Text, [.Label "foo"])] }

/-! ## Inversion and measure lemmas for the token-stream helpers -/

theorem expect_ok {e : NASMTokenType} {ts ts' : List NASMToken}
    {tok : NASMToken} (h : expect e ts = .ok (tok, ts')) :
    ts = tok :: ts' ∧ tok.ty = e := by
  cases ts with
  | nil => simp [expect] at h
  | cons t rest =>
    simp only [expect] at h
    split at h
    · simp only [Except.ok.injEq, Prod.mk.injEq] at h
      obtain ⟨rfl, rfl⟩ := h
      exact ⟨rfl, by assumption⟩
    · simp at h

theorem expect_cons_ok {e : NASMTokenType} {t : NASMToken}
    {rest : List NASMToken} (h : t.ty = e) :
    expect e (t :: rest) = .ok (t, rest) := by
  simp [expect, h]

theorem skip_length_le (ts : List NASMToken) :
    (skip ts).length ≤ ts.length := by
  induction ts with
  | nil => simp [skip]
  | cons t rest ih =>
    simp only [skip]
    split
    · exact le_trans ih (by simp)
    · simp

theorem skip_suffix (ts : List NASMToken) : skip ts <:+ ts := by
  induction ts with
  | nil => simp [skip]
  | cons t rest ih =>
    simp only [skip]
    split
    · exact ih.trans (List.suffix_cons t rest)
    · exact List.suffix_rfl

theorem skip_idem (ts : List NASMToken) : skip (skip ts) = skip ts := by
  induction ts with
  | nil => simp [skip]
  | cons t rest ih =>
    simp only [skip]
    split
    · exact ih
    · simp only [skip]
      split
      · simp_all
      · rfl

theorem skipToNewline_suffix (ts : List NASMToken) :
    skipToNewline ts <:+ ts := by
  induction ts with
  | nil => simp [skipToNewline]
  | cons t rest ih =>
    simp only [skipToNewline]
    split
    · exact List.suffix_rfl
    · exact ih.trans (List.suffix_cons t rest)

theorem skipToMacroEnd_suffix (ts : List NASMToken) :
    skipToMacroEnd ts <:+ ts := by
  induction ts with
  | nil => simp [skipToMacroEnd]
  | cons t rest ih =>
    simp only [skipToMacroEnd]
    split
    · exact List.suffix_rfl
    · exact ih.trans (List.suffix_cons t rest)

theorem skipToMacroEnd_append {body : List NASMToken}
    (hbody : ∀ t ∈ body, t.ty ≠ .EndMacroKeyword) {e : NASMToken}
    (he : e.ty = .EndMacroKeyword) (r : List NASMToken) :
    skipToMacroEnd (body ++ e :: r) = e :: r := by
  induction body with
  | nil => simp [skipToMacroEnd, he]
  | cons t rest ih =>
    have ht := hbody t (by simp)
    simp only [List.cons_append, skipToMacroEnd, ht, if_neg ht]
    exact ih fun u hu => hbody u (by simp [hu])

/-! ## Every rule consumes at least one token and leaves a suffix

These inversions justify the fuel bound of `parseLoop` (see
`parseLoop_congr`) and let properties of the token stream transfer to
the stream a rule leaves behind. -/

theorem skipToNewline_cons_inv {ts q : List NASMToken} {t : NASMToken}
    (h : skipToNewline ts = t :: q) : q.length < ts.length ∧ q <:+ ts := by
  have hs := skipToNewline_suffix ts
  rw [h] at hs
  refine ⟨?_, (List.suffix_cons t q).trans hs⟩
  have := hs.length_le
  simp only [List.length_cons] at this
  omega

theorem skipToMacroEnd_cons_inv {ts q : List NASMToken} {t : NASMToken}
    (h : skipToMacroEnd ts = t :: q) : q.length < ts.length ∧ q <:+ ts := by
  have hs := skipToMacroEnd_suffix ts
  rw [h] at hs
  refine ⟨?_, (List.suffix_cons t q).trans hs⟩
  have := hs.length_le
  simp only [List.length_cons] at this
  omega

theorem rule_bits_ok {ts ts' : List NASMToken} {st st' : ParserState}
    (h : rule_bits ts st = .ok (ts', st')) :
    ts'.length < ts.length ∧ ts' <:+ ts ∧
      st'.currentSection = st.currentSection ∧
      st'.asm.sections = st.asm.sections := by
  unfold rule_bits at h
  split at h
  · simp at h
  split at h
  · simp at h
  next p heq =>
    obtain ⟨rfl, -⟩ := expect_ok heq
    split at h
    · simp at h
    next q heq2 =>
      obtain ⟨rfl, -⟩ := expect_ok heq2
      split at h
      · simp only [Except.ok.injEq, Prod.mk.injEq] at h
        obtain ⟨rfl, rfl⟩ := h
        exact ⟨by simp only [List.length_cons]; omega,
          (List.suffix_cons _ _).trans (List.suffix_cons _ _), rfl, rfl⟩
      · simp at h

theorem rule_section_ok {ts ts' : List NASMToken} {st st' : ParserState}
    (h : rule_section ts st = .ok (ts', st')) :
    ts'.length < ts.length ∧ ts' <:+ ts ∧ st'.asm = st.asm := by
  unfold rule_section at h
  split at h
  · simp at h
  split at h
  · simp at h
  next p heq =>
    obtain ⟨rfl, -⟩ := expect_ok heq
    split at h
    · simp at h
    next q heq2 =>
      obtain ⟨rfl, -⟩ := expect_ok heq2
      split at h
      · simp at h
      split at h
      · simp at h
      next r heq3 =>
        obtain ⟨rfl, -⟩ := expect_ok heq3
        simp only [Except.ok.injEq, Prod.mk.injEq] at h
        obtain ⟨rfl, rfl⟩ := h
        refine ⟨by simp only [List.length_cons]; omega, ?_, rfl⟩
        exact ((List.suffix_cons _ _).trans (List.suffix_cons _ _)).trans
          (List.suffix_cons _ _)

theorem rule_label_ok {ts ts' : List NASMToken} {st st' : ParserState}
    (h : rule_label ts st = .ok (ts', st')) :
    ts'.length < ts.length ∧ ts' <:+ ts ∧
      st'.currentSection = st.currentSection ∧
      ∃ it, st'.asm.sections = pushItem st.asm.sections st.currentSection it
    := by
  unfold rule_label at h
  split at h
  · simp at h
  split at h
  · simp at h
  next p heq =>
    obtain ⟨rfl, -⟩ := expect_ok heq
    split at h
    · simp at h
    next q heq2 =>
      obtain ⟨rfl, -⟩ := expect_ok heq2
      simp only [Except.ok.injEq, Prod.mk.injEq] at h
      obtain ⟨rfl, rfl⟩ := h
      exact ⟨by simp only [List.length_cons]; omega,
        (List.suffix_cons _ _).trans (List.suffix_cons _ _), rfl, _, rfl⟩

theorem rule_mnemonic_ok {ts ts' : List NASMToken} {st st' : ParserState}
    (h : rule_mnemonic ts st = .ok (ts', st')) :
    ts'.length < ts.length ∧ ts' <:+ ts ∧ st' = st := by
  unfold rule_mnemonic at h
  split at h
  · simp at h
  split at h
  · simp at h
  next p heq =>
    obtain ⟨rfl, -⟩ := expect_ok heq
    split at h
    · simp at h
    next q heq2 =>
      obtain ⟨hstn, -⟩ := expect_ok heq2
      simp only [Except.ok.injEq, Prod.mk.injEq] at h
      obtain ⟨rfl, rfl⟩ := h
      obtain ⟨h1, h2⟩ := skipToNewline_cons_inv hstn
      exact ⟨by simp only [List.length_cons]; omega,
        h2.trans (List.suffix_cons _ _), rfl⟩

theorem rule_global_ok {ts ts' : List NASMToken} {st st' : ParserState}
    (h : rule_global ts st = .ok (ts', st')) :
    ts'.length < ts.length ∧ ts' <:+ ts ∧
      st'.currentSection = st.currentSection ∧
      st'.asm.sections = st.asm.sections := by
  unfold rule_global at h
  split at h
  · simp at h
  split at h
  · simp at h
  next p heq =>
    obtain ⟨rfl, -⟩ := expect_ok heq
    split at h
    · simp at h
    next q heq2 =>
      obtain ⟨rfl, -⟩ := expect_ok heq2
      split at h
      · simp at h
      next r heq3 =>
        obtain ⟨rfl, -⟩ := expect_ok heq3
        simp only [Except.ok.injEq, Prod.mk.injEq] at h
        obtain ⟨rfl, rfl⟩ := h
        refine ⟨by simp only [List.length_cons]; omega, ?_, rfl, rfl⟩
        exact ((List.suffix_cons _ _).trans (List.suffix_cons _ _)).trans
          (List.suffix_cons _ _)

theorem rule_extern_decl_ok {ts ts' : List NASMToken} {st st' : ParserState}
    (h : rule_extern_decl ts st = .ok (ts', st')) :
    ts'.length < ts.length ∧ ts' <:+ ts ∧
      st'.currentSection = st.currentSection ∧
      st'.asm.sections = st.asm.sections := by
  unfold rule_extern_decl at h
  split at h
  · simp at h
  split at h
  · simp at h
  next p heq =>
    obtain ⟨rfl, -⟩ := expect_ok heq
    split at h
    · simp at h
    next q heq2 =>
      obtain ⟨rfl, -⟩ := expect_ok heq2
      split at h
      · simp at h
      next r heq3 =>
        obtain ⟨rfl, -⟩ := expect_ok heq3
        simp only [Except.ok.injEq, Prod.mk.injEq] at h
        obtain ⟨rfl, rfl⟩ := h
        refine ⟨by simp only [List.length_cons]; omega, ?_, rfl, rfl⟩
        exact ((List.suffix_cons _ _).trans (List.suffix_cons _ _)).trans
          (List.suffix_cons _ _)

theorem rule_include_ok {ts ts' : List NASMToken} {st st' : ParserState}
    (h : rule_include ts st = .ok (ts', st')) :
    ts'.length < ts.length ∧ ts' <:+ ts ∧
      st'.currentSection = st.currentSection ∧
      st'.asm.sections = st.asm.sections := by
  unfold rule_include at h
  split at h
  · simp at h
  split at h
  · simp at h
  next p heq =>
    obtain ⟨rfl, -⟩ := expect_ok heq
    split at h
    · simp at h
    next q heq2 =>
      obtain ⟨rfl, -⟩ := expect_ok heq2
      split at h
      · simp at h
      next r heq3 =>
        obtain ⟨rfl, -⟩ := expect_ok heq3
        simp only [Except.ok.injEq, Prod.mk.injEq] at h
        obtain ⟨rfl, rfl⟩ := h
        refine ⟨by simp only [List.length_cons]; omega, ?_, rfl, rfl⟩
        exact ((List.suffix_cons _ _).trans (List.suffix_cons _ _)).trans
          (List.suffix_cons _ _)

theorem rule_macro_definition_ok {ts ts' : List NASMToken}
    {st st' : ParserState}
    (h : rule_macro_definition ts st = .ok (ts', st')) :
    ts'.length < ts.length ∧ ts' <:+ ts ∧
      st'.currentSection = st.currentSection ∧
      st'.asm.sections = st.asm.sections := by
  unfold rule_macro_definition at h
  split at h
  · simp at h
  split at h
  · simp at h
  next p heq =>
    obtain ⟨rfl, -⟩ := expect_ok heq
    split at h
    · simp at h
    next q heq2 =>
      obtain ⟨rfl, -⟩ := expect_ok heq2
      split at h
      · simp at h
      next r heq3 =>
        obtain ⟨rfl, -⟩ := expect_ok heq3
        split at h
        · simp at h
        split at h
        · simp at h
        next s heq4 =>
          obtain ⟨hstn, -⟩ := expect_ok heq4
          simp only [Except.ok.injEq, Prod.mk.injEq] at h
          obtain ⟨rfl, rfl⟩ := h
          obtain ⟨h1, h2⟩ := skipToMacroEnd_cons_inv hstn
          refine ⟨by simp only [List.length_cons]; omega, ?_, rfl, rfl⟩
          exact ((h2.trans (List.suffix_cons _ _)).trans
            (List.suffix_cons _ _)).trans (List.suffix_cons _ _)

theorem rule_macro_call_ok {ts ts' : List NASMToken} {st st' : ParserState}
    (h : rule_macro_call ts st = .ok (ts', st')) :
    ts'.length < ts.length ∧ ts' <:+ ts ∧
      st'.currentSection = st.currentSection ∧
      ∃ it, st'.asm.sections = pushItem st.asm.sections st.currentSection it
    := by
  unfold rule_macro_call at h
  split at h
  · simp at h
  split at h
  · simp at h
  next p heq =>
    obtain ⟨rfl, -⟩ := expect_ok heq
    split at h
    · simp at h
    next q heq2 =>
      obtain ⟨hstn, -⟩ := expect_ok heq2
      simp only [Except.ok.injEq, Prod.mk.injEq] at h
      obtain ⟨rfl, rfl⟩ := h
      obtain ⟨h1, h2⟩ := skipToNewline_cons_inv hstn
      exact ⟨by simp only [List.length_cons]; omega,
        h2.trans (List.suffix_cons _ _), rfl, _, rfl⟩

theorem rule_define_ok {ts ts' : List NASMToken} {st st' : ParserState}
    (h : rule_define ts st = .ok (ts', st')) :
    ts'.length < ts.length ∧ ts' <:+ ts ∧
      st'.currentSection = st.currentSection ∧
      st'.asm.sections = st.asm.sections := by
  unfold rule_define at h
  split at h
  · simp at h
  split at h
  · simp at h
  next p heq =>
    obtain ⟨rfl, -⟩ := expect_ok heq
    split at h
    · simp at h
    next q heq2 =>
      obtain ⟨rfl, -⟩ := expect_ok heq2
      split at h
      · simp at h
      next r heq3 =>
        obtain ⟨hstn, -⟩ := expect_ok heq3
        simp only [Except.ok.injEq, Prod.mk.injEq] at h
        obtain ⟨rfl, rfl⟩ := h
        obtain ⟨h1, h2⟩ := skipToNewline_cons_inv hstn
        exact ⟨by simp only [List.length_cons]; omega,
          (h2.trans (List.suffix_cons _ _)).trans (List.suffix_cons _ _),
          rfl, rfl⟩

/-- The top-level dispatch consumes at least one token on success and
leaves a suffix of the stream it was given. -/
theorem stepRule_ok {t : NASMToken} {rest ts' : List NASMToken}
    {st st' : ParserState} (h : stepRule t rest st = .ok (ts', st')) :
    ts'.length < (t :: rest).length ∧ ts' <:+ t :: rest := by
  unfold stepRule at h
  split at h
  · exact ⟨(rule_bits_ok h).1, (rule_bits_ok h).2.1⟩
  · exact ⟨(rule_section_ok h).1, (rule_section_ok h).2.1⟩
  · split at h
    · exact ⟨(rule_label_ok h).1, (rule_label_ok h).2.1⟩
    · simp at h
  · exact ⟨(rule_mnemonic_ok h).1, (rule_mnemonic_ok h).2.1⟩
  · exact ⟨(rule_global_ok h).1, (rule_global_ok h).2.1⟩
  · exact ⟨(rule_extern_decl_ok h).1, (rule_extern_decl_ok h).2.1⟩
  · exact ⟨(rule_macro_definition_ok h).1, (rule_macro_definition_ok h).2.1⟩
  · exact ⟨(rule_macro_call_ok h).1, (rule_macro_call_ok h).2.1⟩
  · simp only [Except.ok.injEq, Prod.mk.injEq] at h
    obtain ⟨rfl, rfl⟩ := h
    exact ⟨by simp, List.suffix_cons _ _⟩
  · exact ⟨(rule_include_ok h).1, (rule_include_ok h).2.1⟩
  · exact ⟨(rule_define_ok h).1, (rule_define_ok h).2.1⟩
  · simp at h

/-! ## The fuel of `parseLoop` is semantically inert -/

/-- Any two fuels above the length of the token stream give the same
result: the loop consumes at least one token per iteration
(`stepRule_ok`), so `ts.length + 1` iterations always reach the end of
input or an error, and `parse`'s fuel choice is sufficient — the
fuel-exhaustion branch of `parseLoop` is unreachable from `parse`. -/
theorem parseLoop_congr : ∀ (f g : Nat) (ts : List NASMToken)
    (st : ParserState), ts.length < f → ts.length < g →
    parseLoop f ts st = parseLoop g ts st := by
  intro f
  induction f with
  | zero => intro g ts st hf; omega
  | succ f ih =>
    intro g ts st hf hg
    cases g with
    | zero => omega
    | succ g =>
      simp only [parseLoop]
      cases hskip : skip ts with
      | nil => rfl
      | cons t rest =>
        cases hstep : stepRule t rest st with
        | error e => simp only [hstep]
        | ok p =>
          obtain ⟨ts', st'⟩ := p
          simp only [hstep]
          have hlen : ts'.length < (t :: rest).length := (stepRule_ok hstep).1
          have hsk : (skip ts).length ≤ ts.length := skip_length_le ts
          rw [hskip] at hsk
          simp only [List.length_cons] at hlen hsk
          exact ih g ts' st' (by omega) (by omega)

/-- Leading blank tokens do not change the loop's result: the loop
begins every iteration with `skip`. -/
theorem parseLoop_skip (fuel : Nat) (ts : List NASMToken)
    (st : ParserState) :
    parseLoop fuel (skip ts) st = parseLoop fuel ts st := by
  cases fuel with
  | zero => rfl
  | succ fuel => simp only [parseLoop, skip_idem]

/-- Evaluation of `expect` on a token built with the expected kind. -/
theorem expect_ty_cons (e : NASMTokenType) (v : String)
    (rest : List NASMToken) :
    expect e (⟨e, v⟩ :: rest) = .ok (⟨e, v⟩, rest) := by
  simp [expect]

/-- A successful dispatch on a non-`section` token keeps the active
section and either leaves the sections map unchanged or pushes one item
into the active section. -/
theorem stepRule_inv {t : NASMToken} {rest ts' : List NASMToken}
    {st st' : ParserState} (h : stepRule t rest st = .ok (ts', st'))
    (hty : t.ty ≠ .Section) :
    st'.currentSection = st.currentSection ∧
    (st'.asm.sections = st.asm.sections ∨
      ∃ it, st'.asm.sections = pushItem st.asm.sections st.currentSection it)
    := by
  unfold stepRule at h
  split at h
  · exact ⟨(rule_bits_ok h).2.2.1, .inl (rule_bits_ok h).2.2.2⟩
  · exact absurd (by assumption) hty
  · split at h
    · obtain ⟨-, -, hc, it, hs⟩ := rule_label_ok h
      exact ⟨hc, .inr ⟨it, hs⟩⟩
    · simp at h
  · obtain ⟨-, -, h3⟩ := rule_mnemonic_ok h
    rw [h3]
    exact ⟨rfl, .inl rfl⟩
  · exact ⟨(rule_global_ok h).2.2.1, .inl (rule_global_ok h).2.2.2⟩
  · exact ⟨(rule_extern_decl_ok h).2.2.1, .inl (rule_extern_decl_ok h).2.2.2⟩
  · exact ⟨(rule_macro_definition_ok h).2.2.1,
      .inl (rule_macro_definition_ok h).2.2.2⟩
  · obtain ⟨-, -, hc, it, hs⟩ := rule_macro_call_ok h
    exact ⟨hc, .inr ⟨it, hs⟩⟩
  · simp only [Except.ok.injEq, Prod.mk.injEq] at h
    obtain ⟨rfl, rfl⟩ := h
    exact ⟨rfl, .inl rfl⟩
  · exact ⟨(rule_include_ok h).2.2.1, .inl (rule_include_ok h).2.2.2⟩
  · exact ⟨(rule_define_ok h).2.2.1, .inl (rule_define_ok h).2.2.2⟩
  · simp at h

/-- Pushing an item into the `Text` section keeps every key of the
sections map equal to `Text` when it already was. -/
theorem pushItem_sections_text
    {secs : List (AssemblySection × List AssemblyItem)} {it : AssemblyItem}
    (h : ∀ q ∈ secs, q.1 = AssemblySection.Text) :
    ∀ q ∈ pushItem secs AssemblySection.Text it,
      q.1 = AssemblySection.Text := by
  induction secs with
  | nil =>
    intro q hq
    simp only [pushItem, List.mem_singleton] at hq
    rw [hq]
  | cons p rest ih =>
    intro q hq
    unfold pushItem at hq
    split at hq
    next heq =>
      rcases List.mem_cons.mp hq with hh | hh
      · rw [hh]; exact heq
      · exact h q (List.mem_cons_of_mem p hh)
    · rcases List.mem_cons.mp hq with hh | hh
      · rw [hh]; exact h p (List.mem_cons_self p rest)
      · exact ih (fun r hr => h r (List.mem_cons_of_mem p hr)) q hh

/-- Loop invariant for files with no `section` token: starting from an
active `Text` section and a sections map whose keys are all `Text`,
every key of the resulting model's sections map is `Text`. -/
theorem parseLoop_no_section {fuel : Nat} : ∀ {ts : List NASMToken}
    {st : ParserState} {asm : AssemblyFile},
    (∀ t ∈ ts, t.ty ≠ NASMTokenType.Section) →
    st.currentSection = AssemblySection.Text →
    (∀ q ∈ st.asm.sections, q.1 = AssemblySection.Text) →
    parseLoop fuel ts st = .ok asm →
    ∀ q ∈ asm.sections, q.1 = AssemblySection.Text := by
  induction fuel with
  | zero =>
    intro ts st asm hns hcs hsec h
    simp [parseLoop] at h
  | succ fuel ih =>
    intro ts st asm hns hcs hsec h
    simp only [parseLoop] at h
    cases hskip : skip ts with
    | nil =>
      simp only [hskip, Except.ok.injEq] at h
      rw [← h]
      exact hsec
    | cons t rest =>
      simp only [hskip] at h
      cases hstep : stepRule t rest st with
      | error e => simp only [hstep] at h; exact absurd h (by simp)
      | ok p =>
        obtain ⟨ts2, st2⟩ := p
        simp only [hstep] at h
        have htmem : t.ty ≠ .Section :=
          hns t ((skip_suffix ts).subset (by rw [hskip]; exact List.mem_cons_self t rest))
        obtain ⟨hc2, hsecs2⟩ := stepRule_inv hstep htmem
        have hsub : ts2 <:+ ts :=
          (stepRule_ok hstep).2.trans (by rw [← hskip]; exact skip_suffix ts)
        refine ih (fun u hu => hns u (hsub.subset hu)) (hc2.trans hcs) ?_ h
        rcases hsecs2 with hh | ⟨it, hh⟩
        · rw [hh]; exact hsec
        · rw [hh, hcs]
          exact pushItem_sections_text hsec

/-- Looking up a section after `pushItem`: the pushed item is appended
to the target section's list and every other section is untouched. -/
theorem pushItem_lookup (secs : List (AssemblySection × List AssemblyItem))
    (k : AssemblySection) (it : AssemblyItem) (k' : AssemblySection) :
    (mapLookup (pushItem secs k it) k').getD [] =
      (mapLookup secs k').getD [] ++ (if k' = k then [it] else []) := by
  induction secs with
  | nil =>
    by_cases h : k' = k
    · subst h
      simp [pushItem, mapLookup]
    · simp [pushItem, mapLookup, h, Ne.symm h]
  | cons p rest ih =>
    obtain ⟨s, items⟩ := p
    by_cases hs : s = k
    · subst hs
      simp only [pushItem, if_pos rfl]
      by_cases h' : s = k'
      · subst h'
        simp [mapLookup]
      · simp [mapLookup, h', Ne.symm h']
    · simp only [pushItem, if_neg hs]
      by_cases h' : s = k'
      · subst h'
        simp [mapLookup, hs]
      · simp [mapLookup, h', ih]

/-- A successful dispatch (on any token kind) either leaves the
sections map unchanged or pushes a single item into one section. -/
theorem stepRule_sections {t : NASMToken} {rest ts' : List NASMToken}
    {st st' : ParserState} (h : stepRule t rest st = .ok (ts', st')) :
    st'.asm.sections = st.asm.sections ∨
    ∃ k it, st'.asm.sections = pushItem st.asm.sections k it := by
  unfold stepRule at h
  split at h
  · exact .inl (rule_bits_ok h).2.2.2
  · exact .inl (congrArg AssemblyFile.sections (rule_section_ok h).2.2)
  · split at h
    · obtain ⟨-, -, -, it, hs⟩ := rule_label_ok h
      exact .inr ⟨_, it, hs⟩
    · simp at h
  · obtain ⟨-, -, h3⟩ := rule_mnemonic_ok h
    rw [h3]
    exact .inl rfl
  · exact .inl (rule_global_ok h).2.2.2
  · exact .inl (rule_extern_decl_ok h).2.2.2
  · exact .inl (rule_macro_definition_ok h).2.2.2
  · obtain ⟨-, -, -, it, hs⟩ := rule_macro_call_ok h
    exact .inr ⟨_, it, hs⟩
  · simp only [Except.ok.injEq, Prod.mk.injEq] at h
    obtain ⟨rfl, rfl⟩ := h
    exact .inl rfl
  · exact .inl (rule_include_ok h).2.2.2
  · exact .inl (rule_define_ok h).2.2.2
  · simp at h

/-- Once pushed, an item is never removed or reordered: across a whole
successful run of the loop, every section's item list at the start is
a prefix of that section's item list in the result. -/
theorem parseLoop_sections_prefix {fuel : Nat} : ∀ {ts : List NASMToken}
    {st : ParserState} {asm : AssemblyFile},
    parseLoop fuel ts st = .ok asm →
    ∀ k, (mapLookup st.asm.sections k).getD [] <+:
      (mapLookup asm.sections k).getD [] := by
  induction fuel with
  | zero =>
    intro ts st asm h k
    simp [parseLoop] at h
  | succ fuel ih =>
    intro ts st asm h k
    simp only [parseLoop] at h
    cases hskip : skip ts with
    | nil =>
      simp only [hskip, Except.ok.injEq] at h
      rw [← h]
    | cons t rest =>
      simp only [hskip] at h
      cases hstep : stepRule t rest st with
      | error e => simp only [hstep] at h; exact absurd h (by simp)
      | ok p =>
        obtain ⟨ts2, st2⟩ := p
        simp only [hstep] at h
        refine List.IsPrefix.trans ?_ (ih h k)
        rcases stepRule_sections hstep with hh | ⟨k', it, hh⟩
        · rw [hh]
        · rw [hh, pushItem_lookup]
          exact List.prefix_append _ _

/-- Coupling of `firstSectionState` with a successful run of
`parseLoop`, starting from an all-`Text` state: when the loop first
dispatches a `Section` token, the active section is still `Text`,
every item consumed so far lies under `Text`, the reported stream
indeed begins with the `Section` token, the run continues from exactly
that intermediate state to the final model, and every section list
accumulated so far survives as a prefix in the final model. -/
theorem firstSectionState_spec {fuel : Nat} : ∀ {ts : List NASMToken}
    {st st₁ : ParserState} {asm : AssemblyFile} {ts₁ : List NASMToken},
    parseLoop fuel ts st = .ok asm →
    firstSectionState fuel ts st = some (ts₁, st₁) →
    st.currentSection = AssemblySection.Text →
    (∀ q ∈ st.asm.sections, q.1 = AssemblySection.Text) →
    st₁.currentSection = AssemblySection.Text ∧
    (∀ q ∈ st₁.asm.sections, q.1 = AssemblySection.Text) ∧
    (∃ t rest, ts₁ = t :: rest ∧ t.ty = NASMTokenType.Section) ∧
    (∃ fuel', parseLoop fuel' ts₁ st₁ = .ok asm) ∧
    ∀ k, (mapLookup st₁.asm.sections k).getD [] <+:
      (mapLookup asm.sections k).getD [] := by
  induction fuel with
  | zero =>
    intro ts st st₁ asm ts₁ h hf _ _
    simp [firstSectionState] at hf
  | succ fuel ih =>
    intro ts st st₁ asm ts₁ h hf hcs hsec
    simp only [parseLoop] at h
    simp only [firstSectionState] at hf
    cases hskip : skip ts with
    | nil =>
      simp only [hskip] at hf
      exact Option.noConfusion hf
    | cons t rest =>
      simp only [hskip] at h hf
      by_cases hty : t.ty = .Section
      · rw [if_pos hty] at hf
        simp only [Option.some.injEq, Prod.mk.injEq] at hf
        obtain ⟨rfl, rfl⟩ := hf
        have hrun : parseLoop (fuel + 1) (t :: rest) st = .ok asm := by
          have hsk : skip (t :: rest) = t :: rest := by
            unfold skip
            rw [if_neg (by rw [hty]; simp)]
          simp only [parseLoop, hsk]
          exact h
        exact ⟨hcs, hsec, ⟨t, rest, rfl, hty⟩, ⟨fuel + 1, hrun⟩,
          parseLoop_sections_prefix hrun⟩
      · rw [if_neg hty] at hf
        cases hstep : stepRule t rest st with
        | error e =>
          simp only [hstep] at hf
          exact Option.noConfusion hf
        | ok p =>
          obtain ⟨ts2, st2⟩ := p
          simp only [hstep] at h hf
          obtain ⟨hc2, hsecs2⟩ := stepRule_inv hstep hty
          refine ih h hf (hc2.trans hcs) ?_
          rcases hsecs2 with hh | ⟨it, hh⟩
          · rw [hh]
            exact hsec
          · rw [hh, hcs]
            exact pushItem_sections_text hsec

/-- Unfolding of `labelTokens` on a cons. -/
theorem labelTokens_cons (n : String) (rest : List String) :
    labelTokens (n :: rest) =
      ⟨.Symbol, n⟩ :: ⟨.Colon, ":"⟩ :: ⟨.Newline, "\n"⟩ ::
        labelTokens rest := by
  simp [labelTokens]

/-- Running the parse loop over label lines appends one `Label` item
per name to the active section, in order, and changes nothing else. -/
theorem parseLoop_labels (names : List String) : ∀ (fuel : Nat)
    (st : ParserState), (labelTokens names).length < fuel →
    parseLoop fuel (labelTokens names) st =
      .ok { st.asm with sections :=
        (names.foldl (fun s n => pushItem s st.currentSection (.Label n))
          st.asm.sections) } := by
  induction names with
  | nil =>
    intro fuel st h
    cases fuel with
    | zero => exact absurd h (by omega)
    | succ fuel =>
      show parseLoop _ [] st = _
      simp [parseLoop, skip, labelTokens]
  | cons n rest ih =>
    intro fuel st h
    cases fuel with
    | zero => exact absurd h (by omega)
    | succ fuel =>
      rw [labelTokens_cons] at h ⊢
      simp only [List.length_cons] at h
      have hstep : stepRule ⟨.Symbol, n⟩
          (⟨.Colon, ":"⟩ :: ⟨.Newline, "\n"⟩ :: labelTokens rest) st =
          .ok (⟨.Newline, "\n"⟩ :: labelTokens rest,
            { st with asm := { st.asm with
              sections := pushItem st.asm.sections st.currentSection
                (.Label n) } }) := by
        have hg : peek_is (⟨.Colon, ":"⟩ :: ⟨.Newline, "\n"⟩ ::
            labelTokens rest) NASMTokenType.Colon = true := rfl
        simp only [stepRule, hg, if_true, rule_label, List.isEmpty_cons,
          Bool.false_eq_true, if_false, expect_ty_cons]
      have hskip : skip (⟨.Symbol, n⟩ :: ⟨.Colon, ":"⟩ ::
          ⟨.Newline, "\n"⟩ :: labelTokens rest : List NASMToken) =
          ⟨.Symbol, n⟩ :: ⟨.Colon, ":"⟩ :: ⟨.Newline, "\n"⟩ ::
            labelTokens rest := by
        simp [skip]
      simp only [parseLoop, hskip, hstep]
      have hnl : skip (⟨.Newline, "\n"⟩ :: labelTokens rest :
          List NASMToken) = skip (labelTokens rest) := by
        simp [skip]
      rw [← parseLoop_skip fuel (⟨.Newline, "\n"⟩ :: labelTokens rest) _,
        hnl, parseLoop_skip]
      rw [ih fuel _ (by omega)]
      rfl

/-- A name the section match accepts has its ASCII-lowercasing among
the four section names. -/
theorem sectionOfName_mem {name : String} {sec : AssemblySection}
    (h : sectionOfName name = some sec) :
    toAsciiLower name ∈ [".text", ".data", ".rodata", ".bss"] := by
  unfold sectionOfName at h
  split at h <;> simp_all

/-! ## Association-list map lemmas -/

theorem mapLookup_insert_self {α β : Type} [DecidableEq α]
    (m : List (α × β)) (k : α) (v : β) :
    mapLookup (mapInsert m k v) k = some v := by
  induction m with
  | nil => simp [mapInsert, mapLookup]
  | cons p rest ih =>
    obtain ⟨k', v'⟩ := p
    by_cases h : k' = k
    · subst h
      simp [mapInsert, mapLookup]
    · simp [mapInsert, mapLookup, h, ih]

theorem mapLookup_insert_ne {α β : Type} [DecidableEq α]
    {m : List (α × β)} {k k' : α} (h : k' ≠ k) (v : β) :
    mapLookup (mapInsert m k v) k' = mapLookup m k' := by
  induction m with
  | nil => simp [mapInsert, mapLookup, Ne.symm h]
  | cons p rest ih =>
    obtain ⟨a, b⟩ := p
    by_cases ha : a = k
    · subst ha
      simp [mapInsert, mapLookup, Ne.symm h]
    · simp [mapInsert, mapLookup, ha, ih]

/-! ## Fold lemmas for the resolver -/

/-- The inner loop of `collectGlobals` never creates an entry for a
name outside the file's global set. -/
theorem lookup_globalsFold_none {e : String} (f : String) :
    ∀ (l : List String) (gs : List (String × String)), e ∉ l →
    mapLookup gs e = none →
    mapLookup (l.foldl (fun gs g => mapInsert gs g f) gs) e = none := by
  intro l
  induction l with
  | nil => intro gs _ h0; exact h0
  | cons g rest ih =>
    intro gs h h0
    simp only [List.foldl_cons]
    refine ih _ (fun hc => h (List.mem_cons_of_mem g hc)) ?_
    have hne : e ≠ g := fun hh => h (by rw [hh]; exact List.mem_cons_self g rest)
    rw [mapLookup_insert_ne hne]
    exact h0

/-- A name in no file's global set gets no entry in
`global_sources`. -/
theorem lookup_collectGlobals_none {e : String} :
    ∀ (files : List (String × AssemblyFile)) (gs : List (String × String)),
    (∀ q ∈ files, e ∉ q.2.globals) → mapLookup gs e = none →
    mapLookup (collectGlobals files gs) e = none := by
  intro files
  induction files with
  | nil => intro gs _ h0; exact h0
  | cons q rest ih =>
    intro gs h h0
    exact ih _ (fun r hr => h r (List.mem_cons_of_mem q hr))
      (lookup_globalsFold_none _ _ _ (h q (List.mem_cons_self q rest)) h0)

/-- The extern-resolution loop never creates an `internal_externs`
entry for a name absent from `global_sources`. -/
theorem lookup_externsFold_ie_none {e : String} {gs : List (String × String)}
    (hg : mapLookup gs e = none) :
    ∀ (exs : List String) (ie : List (String × String)),
    mapLookup ie e = none →
    mapLookup (exs.foldl (fun ie ex =>
      match mapLookup gs ex with
      | some gfile => mapInsert ie ex gfile
      | none => ie) ie) e = none := by
  intro exs
  induction exs with
  | nil => intro ie h; exact h
  | cons x rest ih =>
    intro ie h
    simp only [List.foldl_cons]
    apply ih
    cases hx : mapLookup gs x with
    | none => simp only [hx]; exact h
    | some gfile =>
      simp only [hx]
      have hxe : e ≠ x := by
        intro hh
        rw [hh] at hg
        rw [hg] at hx
        cases hx
      rw [mapLookup_insert_ne hxe]
      exact h

/-- A name absent from every file's globals stays absent from
`internal_externs` through the whole per-file pass. -/
theorem lookup_resolveFold_ie_none {e : String} {gs : List (String × String)}
    (hg : mapLookup gs e = none) :
    ∀ (files : List (String × AssemblyFile)) (acc : AssemblyProject),
    mapLookup acc.internal_externs e = none →
    mapLookup ((files.foldl (resolveFileStep gs) acc).internal_externs) e
      = none := by
  intro files
  induction files with
  | nil => intro acc h; exact h
  | cons q rest ih =>
    intro acc h
    simp only [List.foldl_cons]
    apply ih
    simp only [resolveFileStep]
    exact lookup_externsFold_ie_none hg _ _ h

/-- Looking a name up after the extern-insertion loop: `External` with
no section when the name is among the externs, the underlying table's
answer otherwise. -/
theorem lookup_externsFold_tbl (e : String) :
    ∀ (exs : List String) (tbl : SymbolTable),
    mapLookup (exs.foldl
      (fun t ex => mapInsert t ex (Visibility.External, none)) tbl) e =
      if e ∈ exs then some (Visibility.External, none)
      else mapLookup tbl e := by
  intro exs
  induction exs with
  | nil => intro tbl; simp
  | cons x rest ih =>
    intro tbl
    simp only [List.foldl_cons]
    rw [ih]
    by_cases hx : e ∈ rest
    · simp [hx, List.mem_cons]
    · by_cases hxe : e = x
      · subst hxe
        simp only [hx, if_false]
        rw [mapLookup_insert_self]
        simp [List.mem_cons]
      · simp only [hx, if_false]
        rw [mapLookup_insert_ne hxe]
        simp [List.mem_cons, hxe, hx]

/-- The item scan never touches a table entry whose key occurs in no
non-dotted `Label` item. -/
theorem lookup_scanFold_eq {e : String} {g : List String} :
    ∀ (pairs : List (AssemblySection × AssemblyItem)) (acc : ScanAcc),
    (∀ q ∈ pairs, q.2 = AssemblyItem.Label e → strStartsWith e "." = true) →
    mapLookup ((pairs.foldl (scanItem g) acc).local_symbols) e =
      mapLookup acc.local_symbols e := by
  intro pairs
  induction pairs with
  | nil => intro acc _; rfl
  | cons q rest ih =>
    intro acc h
    simp only [List.foldl_cons]
    rw [ih _ (fun r hr hl => h r (List.mem_cons_of_mem q hr) hl)]
    obtain ⟨sec, item⟩ := q
    cases item with
    | Label lbl =>
      by_cases hd : strStartsWith lbl "." = true
      · simp [scanItem, hd]
      · have hne : e ≠ lbl := by
          intro hh
          subst hh
          exact hd (h (sec, AssemblyItem.Label e)
            (List.mem_cons_self _ _) rfl)
        simp only [scanItem]
        rw [if_neg hd]
        exact mapLookup_insert_ne hne _
    | Mnemonic => rfl
    | MacroCall n args => rfl

/-- Files other than `p` never touch `p`'s per-file symbol table. -/
theorem lookup_resolveFold_symbols_pres {p : String}
    {gs : List (String × String)} :
    ∀ (files : List (String × AssemblyFile)) (acc : AssemblyProject),
    (∀ q ∈ files, q.1 ≠ p) →
    mapLookup ((files.foldl (resolveFileStep gs) acc).symbols) p =
      mapLookup acc.symbols p := by
  intro files
  induction files with
  | nil => intro acc _; rfl
  | cons q rest ih =>
    intro acc h
    simp only [List.foldl_cons]
    rw [ih _ (fun r hr => h r (List.mem_cons_of_mem q hr))]
    simp only [resolveFileStep]
    exact mapLookup_insert_ne (Ne.symm (h q (List.mem_cons_self q rest))) _

/-- Every processed file gets (or keeps) an entry in the per-file
symbols map. -/
theorem lookup_resolveFold_symbols_isSome
    {gs : List (String × String)} :
    ∀ (files : List (String × AssemblyFile)) (acc : AssemblyProject)
    (p : String),
    (p ∈ files.map Prod.fst ∨ (mapLookup acc.symbols p).isSome = true) →
    (mapLookup ((files.foldl (resolveFileStep gs) acc).symbols) p).isSome
      = true := by
  intro files
  induction files with
  | nil =>
    intro acc p h
    rcases h with h | h
    · simp at h
    · exact h
  | cons q rest ih =>
    intro acc p h
    simp only [List.foldl_cons]
    apply ih
    rcases h with h | h
    · simp only [List.map_cons, List.mem_cons] at h
      rcases h with h | h
      · right
        rw [h]
        simp only [resolveFileStep]
        rw [mapLookup_insert_self]
        rfl
      · left
        exact h
    · right
      simp only [resolveFileStep]
      by_cases hpq : p = q.1
      · rw [hpq, mapLookup_insert_self]
        rfl
      · rw [mapLookup_insert_ne hpq]
        exact h

/-! ## The claims -/

/-- Claim C7: parsing the source text `global\n` fails with error kind
`Unexpected` whose expected field is `Symbol` and whose received field
is `Some((Newline, "\n"))`. -/
theorem claim_C7 :
    parse tokensGlobalNewline =
      .error (.Unexpected .Symbol (some (.Newline, "\n"))) := rfl

/-- Claim C8: parsing an empty source file succeeds and yields a file
model with bits 64 and empty includes, globals, externs, macros,
defines and sections. -/
theorem claim_C8 :
    parse [] =
      .ok { bits := 64
            includes := []
            globals := []
            externs := []
            macros := []
            defines := []
            sections := [] } := rfl

/-- Counterexample to claim C2 as stated: parsing `%macro foo 2` ...
`%endmacro` does not succeed — the name after `%macro` must be a
macro-call token (`$`-sigiled), and `foo` lexes as a `Symbol`, so the
parse fails with `Unexpected {expected: MacroCall, received:
Some((Symbol, "foo"))}` and no macro record is appended. -/
theorem claim_C2_counterexample :
    parse tokensMacroFoo =
      .error (.Unexpected .MacroCall (some (.Symbol, "foo"))) ∧
    ∀ asm, parse tokensMacroFoo ≠ .ok asm := by
  refine ⟨rfl, fun asm h => ?_⟩
  rw [show parse tokensMacroFoo =
    .error (.Unexpected .MacroCall (some (.Symbol, "foo"))) from rfl] at h
  exact Except.noConfusion h

/-- Claim C2 as amended: parsing `%macro $foo 2`, any run of body
tokens containing no `%endmacro` token, and `%endmacro` succeeds and
appends a macro record whose name is the macro-call token's text and
whose arg_count is 2, regardless of the body's contents; the body
tokens are never checked for grammar validity and the recorded body is
empty. -/
theorem claim_C2_amended (mname cv : String) (body : List NASMToken)
    (endTok : NASMToken)
    (hbody : ∀ t ∈ body, t.ty ≠ .EndMacroKeyword)
    (hend : endTok.ty = .EndMacroKeyword) :
    parse (⟨.MacroKeyword, cv⟩ :: ⟨.MacroCall, mname⟩ :: ⟨.Number, "2"⟩ ::
        (body ++ [endTok])) =
      .ok { AssemblyFile.default with
        macros := [{ name := mname, arg_count := 2, body := [] }] } := by
  have hstep : stepRule ⟨.MacroKeyword, cv⟩
      (⟨.MacroCall, mname⟩ :: ⟨.Number, "2"⟩ :: (body ++ [endTok]))
      ⟨AssemblyFile.default, .Text⟩ =
      .ok ([], ⟨{ AssemblyFile.default with
        macros := [{ name := mname, arg_count := 2, body := [] }] },
        .Text⟩) := by
    have h2 : parse_usize "2" = some 2 := rfl
    simp only [stepRule, rule_macro_definition, List.isEmpty_cons,
      Bool.false_eq_true, if_false, expect_ty_cons, h2,
      skipToMacroEnd_append hbody hend, expect_cons_ok hend]
    rfl
  have hskip : skip (⟨.MacroKeyword, cv⟩ :: ⟨.MacroCall, mname⟩ ::
      ⟨.Number, "2"⟩ :: (body ++ [endTok]) : List NASMToken) =
      ⟨.MacroKeyword, cv⟩ :: ⟨.MacroCall, mname⟩ :: ⟨.Number, "2"⟩ ::
        (body ++ [endTok]) := by
    simp [skip]
  unfold parse
  simp only [List.length_cons, List.length_append, List.length_singleton]
  simp only [parseLoop, hskip, hstep]
  simp only [skip]

/-- Witness for claim C2 as amended, at a concrete ungrammatical body
(`mov` followed by a colonless symbol and newlines). -/
theorem claim_C2_witness :
    parse [⟨.MacroKeyword, "%macro"⟩, ⟨.MacroCall, "$foo"⟩,
      ⟨.Number, "2"⟩, ⟨.Newline, "\n"⟩, ⟨.Mnemonic, "mov"⟩,
      ⟨.Symbol, "junk"⟩, ⟨.Newline, "\n"⟩,
      ⟨.EndMacroKeyword, "%endmacro"⟩] =
    .ok { AssemblyFile.default with
      macros := [{ name := "$foo", arg_count := 2, body := [] }] } :=
  claim_C2_amended "$foo" "%macro"
    [⟨.Newline, "\n"⟩, ⟨.Mnemonic, "mov"⟩, ⟨.Symbol, "junk"⟩,
      ⟨.Newline, "\n"⟩]
    ⟨.EndMacroKeyword, "%endmacro"⟩ (by decide) rfl

/-- Claim C4: parsing a file holding only a `section .text` directive
followed by `N` non-dotted labels, each immediately followed by a
colon, succeeds, and the Text section's item list of the resulting
model holds exactly the `N` `Label` items in file order. -/
theorem claim_C4 (names : List String)
    (hnd : ∀ n ∈ names, strStartsWith n "." = false) :
    parse (c4tokens names) = .ok (c4result names) ∧
    (mapLookup (c4result names).sections AssemblySection.Text).getD [] =
      names.map AssemblyItem.Label := by
  constructor
  · have hsec : stepRule ⟨.Section, "section"⟩
        (⟨.Symbol, ".text"⟩ :: ⟨.Newline, "\n"⟩ :: labelTokens names)
        ⟨AssemblyFile.default, .Text⟩ =
        .ok (labelTokens names, ⟨AssemblyFile.default, .Text⟩) := by
      have ht : sectionOfName ".text" = some AssemblySection.Text := rfl
      simp only [stepRule, rule_section, List.isEmpty_cons,
        Bool.false_eq_true, if_false, expect_ty_cons, ht]
    unfold parse c4tokens
    simp only [List.length_cons]
    have hskip : skip (⟨.Section, "section"⟩ :: ⟨.Symbol, ".text"⟩ ::
        ⟨.Newline, "\n"⟩ :: labelTokens names : List NASMToken) =
        ⟨.Section, "section"⟩ :: ⟨.Symbol, ".text"⟩ :: ⟨.Newline, "\n"⟩ ::
          labelTokens names := by
      simp [skip]
    simp only [parseLoop, hskip, hsec]
    exact parseLoop_labels names ((labelTokens names).length + 1 + 1 + 1)
      ⟨AssemblyFile.default, .Text⟩ (by omega)
  · unfold c4result
    cases names with
    | nil => rfl
    | cons n rest =>
      have hfold : ∀ (l : List String) (acc : List AssemblyItem),
          l.foldl (fun s m => pushItem s AssemblySection.Text (.Label m))
            [(AssemblySection.Text, acc)] =
          [(AssemblySection.Text, acc ++ l.map AssemblyItem.Label)] := by
        intro l
        induction l with
        | nil => intro acc; simp
        | cons m r ih2 =>
          intro acc
          simp only [List.foldl_cons]
          rw [show pushItem [(AssemblySection.Text, acc)]
            AssemblySection.Text (AssemblyItem.Label m) =
            [(AssemblySection.Text, acc ++ [AssemblyItem.Label m])] by
              simp [pushItem]]
          rw [ih2 (acc ++ [AssemblyItem.Label m])]
          simp
      simp only [List.foldl_cons]
      rw [show pushItem [] AssemblySection.Text (AssemblyItem.Label n) =
        [(AssemblySection.Text, [AssemblyItem.Label n])] from rfl]
      rw [hfold rest [AssemblyItem.Label n]]
      simp [mapLookup]

/-- Witness for claim C4 at two concrete non-dotted labels. -/
theorem claim_C4_witness :
    parse (c4tokens ["start", "done"]) = .ok (c4result ["start", "done"]) ∧
    (mapLookup (c4result ["start", "done"]).sections
      AssemblySection.Text).getD [] =
      ["start", "done"].map AssemblyItem.Label :=
  claim_C4 ["start", "done"] (by decide)

/-- Claim C6: the section rule succeeds exactly when the symbol token
following the `section` keyword has ASCII-lowercased text equal to one
of `.text`, `.data`, `.rodata`, `.bss` (then setting the active section
and consuming the trailing newline), and fails with `InvalidSyntax` for
any other symbol; in particular, parsing `section .bogus\n` fails with
`InvalidSyntax`. -/
theorem claim_C6 (sv name : String) (nl : NASMToken)
    (rest : List NASMToken) (st : ParserState) :
    (toAsciiLower name ∈ [".text", ".data", ".rodata", ".bss"] →
      nl.ty = .Newline →
      ∃ sec, sectionOfName name = some sec ∧
        rule_section (⟨.Section, sv⟩ :: ⟨.Symbol, name⟩ :: nl :: rest) st =
          .ok (rest, { st with currentSection := sec })) ∧
    (toAsciiLower name ∉ [".text", ".data", ".rodata", ".bss"] →
      rule_section (⟨.Section, sv⟩ :: ⟨.Symbol, name⟩ :: nl :: rest) st =
        .error .InvalidSyntax) ∧
    parse tokensSectionBogus = .error .InvalidSyntax := by
  refine ⟨?_, ?_, rfl⟩
  · intro hmem hnl
    simp only [List.mem_cons, List.not_mem_nil, or_false] at hmem
    have run : ∀ sec : AssemblySection, sectionOfName name = some sec →
        rule_section (⟨.Section, sv⟩ :: ⟨.Symbol, name⟩ :: nl :: rest) st =
          .ok (rest, { st with currentSection := sec }) := by
      intro sec hsec
      simp only [rule_section, List.isEmpty_cons, Bool.false_eq_true,
        if_false, expect_ty_cons, hsec, expect_cons_ok hnl]
    rcases hmem with h | h | h | h
    · have hsec : sectionOfName name = some AssemblySection.Text := by
        unfold sectionOfName
        rw [h]
        rfl
      exact ⟨_, hsec, run _ hsec⟩
    · have hsec : sectionOfName name = some AssemblySection.Data := by
        unfold sectionOfName
        rw [h]
        rfl
      exact ⟨_, hsec, run _ hsec⟩
    · have hsec : sectionOfName name = some AssemblySection.ROData := by
        unfold sectionOfName
        rw [h]
        rfl
      exact ⟨_, hsec, run _ hsec⟩
    · have hsec : sectionOfName name = some AssemblySection.BSS := by
        unfold sectionOfName
        rw [h]
        rfl
      exact ⟨_, hsec, run _ hsec⟩
  · intro hnot
    cases hs : sectionOfName name with
    | some sec => exact absurd (sectionOfName_mem hs) hnot
    | none =>
      simp only [rule_section, List.isEmpty_cons, Bool.false_eq_true,
        if_false, expect_ty_cons, hs]

/-- Witness for claim C6: the rule accepts `.data` (setting the active
section to `Data`) and rejects `.bogus`. -/
theorem claim_C6_witness :
    rule_section [⟨.Section, "section"⟩, ⟨.Symbol, ".data"⟩,
        ⟨.Newline, "\n"⟩] ⟨AssemblyFile.default, .Text⟩ =
      .ok ([], ⟨AssemblyFile.default, .Data⟩) ∧
    rule_section [⟨.Section, "section"⟩, ⟨.Symbol, ".bogus"⟩,
        ⟨.Newline, "\n"⟩] ⟨AssemblyFile.default, .Text⟩ =
      .error .InvalidSyntax := by
  constructor
  · obtain ⟨sec, hsec, hrun⟩ :=
      (claim_C6 "section" ".data" ⟨.Newline, "\n"⟩ []
        ⟨AssemblyFile.default, .Text⟩).1 (by decide) rfl
    have : sec = AssemblySection.Data := by
      rw [show sectionOfName ".data" = some AssemblySection.Data from rfl]
        at hsec
      exact (Option.some.injEq _ _ ▸ hsec).symm
    rw [this] at hrun
    exact hrun
  · exact (claim_C6 "section" ".bogus" ⟨.Newline, "\n"⟩ []
      ⟨AssemblyFile.default, .Text⟩).2.1 (by decide)

/-- Claim C9: the parser's initial active section is `Text`, so every
label and macro call consumed before the first `section` directive of
the file is appended to the `Text` section of the resulting model.
Stated on any successful parse: (a) when the stream holds no `section`
token at all, every entry of the resulting sections map lies under
`Text`; (b) when the run does reach a first `section` directive
(`firstSectionState` reports the loop state at that dispatch, and the
run provably continues from it to the final model), the active section
is still `Text` at that point, every item consumed so far lies under
`Text`, and the `Text` items accumulated so far remain — unchanged and
in order — a prefix of the final model's `Text` item list. -/
theorem claim_C9 (ts : List NASMToken) (asm : AssemblyFile)
    (h : parse ts = .ok asm) :
    ((∀ t ∈ ts, t.ty ≠ NASMTokenType.Section) →
      ∀ q ∈ asm.sections, q.1 = AssemblySection.Text) ∧
    ∀ ts₁ st₁,
      firstSectionState (ts.length + 1) ts
        { asm := AssemblyFile.default,
          currentSection := AssemblySection.Text } = some (ts₁, st₁) →
      st₁.currentSection = AssemblySection.Text ∧
      (∀ q ∈ st₁.asm.sections, q.1 = AssemblySection.Text) ∧
      (∃ t rest, ts₁ = t :: rest ∧ t.ty = NASMTokenType.Section) ∧
      (∃ fuel', parseLoop fuel' ts₁ st₁ = .ok asm) ∧
      (mapLookup st₁.asm.sections AssemblySection.Text).getD [] <+:
        (mapLookup asm.sections AssemblySection.Text).getD [] := by
  constructor
  · intro hns
    exact parseLoop_no_section hns rfl
      (fun q hq => absurd hq (List.not_mem_nil q)) h
  · intro ts₁ st₁ hf
    obtain ⟨h1, h2, h3, h4, h5⟩ := firstSectionState_spec h hf rfl
      (fun q hq => absurd hq (List.not_mem_nil q))
    exact ⟨h1, h2, h3, h4, h5 AssemblySection.Text⟩

/-- Witness for claim C9 at a file that does contain a `section`
directive (`pre:` before `section .data`, then `d:`): the `Text` items
consumed before the directive are a prefix of the final model's `Text`
item list. -/
theorem claim_C9_witness :
    (mapLookup ({ AssemblyFile.default with
      sections := [(AssemblySection.Text, [AssemblyItem.Label "pre"])] }
      : AssemblyFile).sections AssemblySection.Text).getD [] <+:
    (mapLookup ({ AssemblyFile.default with
      sections := [(AssemblySection.Text, [AssemblyItem.Label "pre"]),
        (AssemblySection.Data, [AssemblyItem.Label "d"])] }
      : AssemblyFile).sections AssemblySection.Text).getD [] :=
  ((claim_C9
    [⟨.Symbol, "pre"⟩, ⟨.Colon, ":"⟩, ⟨.Newline, "\n"⟩,
     ⟨.Section, "section"⟩, ⟨.Symbol, ".data"⟩, ⟨.Newline, "\n"⟩,
     ⟨.Symbol, "d"⟩, ⟨.Colon, ":"⟩]
    { AssemblyFile.default with
      sections := [(AssemblySection.Text, [AssemblyItem.Label "pre"]),
        (AssemblySection.Data, [AssemblyItem.Label "d"])] }
    rfl).2
    [⟨.Section, "section"⟩, ⟨.Symbol, ".data"⟩, ⟨.Newline, "\n"⟩,
     ⟨.Symbol, "d"⟩, ⟨.Colon, ":"⟩]
    { asm := { AssemblyFile.default with
        sections := [(AssemblySection.Text, [AssemblyItem.Label "pre"])] }
      currentSection := AssemblySection.Text }
    rfl).2.2.2.2

/-- Claim C10: after building a project from any list of file models,
the per-file symbols map contains an entry for every file path in the
project's files map, so the lookup `generate_docs` unwraps for each
file never fails. -/
theorem claim_C10 (files : List (String × AssemblyFile))
    (q : String × AssemblyFile) (hq : q ∈ files) :
    (mapLookup (build_from files).symbols q.1).isSome = true := by
  unfold build_from resolve emptyProject
  exact lookup_resolveFold_symbols_isSome files _ q.1
    (Or.inl (List.mem_map_of_mem Prod.fst hq))

/-- Witness for claim C10 at a one-file project. -/
theorem claim_C10_witness :
    (mapLookup (build_from [("lib.asm", c1fileB)]).symbols
      "lib.asm").isSome = true :=
  claim_C10 [("lib.asm", c1fileB)] ("lib.asm", c1fileB)
    (List.mem_singleton.mpr rfl)

/-- Counterexample to claim C5 as stated: in a one-file project whose
file declares `extern foo` and also defines the non-dotted label `foo`
(and no file declares any global), `foo` gets no `internal_externs`
entry, but its per-file symbols entry is `(Private, Text)` — the label
scan overwrote the `External` entry — so it does not appear with
visibility `External`. -/
theorem claim_C5_counterexample :
    "foo" ∈ c5file.externs ∧
    (∀ q ∈ [("file.asm", c5file)], "foo" ∉ q.2.globals) ∧
    mapLookup (build_from [("file.asm", c5file)]).internal_externs "foo"
      = none ∧
    ∃ tbl,
      mapLookup (build_from [("file.asm", c5file)]).symbols "file.asm"
        = some tbl ∧
      mapLookup tbl "foo" =
        some (Visibility.Private, some AssemblySection.Text) ∧
      mapLookup tbl "foo" ≠ some (Visibility.External, none) := by
  refine ⟨by decide, by decide, rfl, _, rfl, rfl, by decide⟩

/-- Claim C5 as amended: for every extern name declared in some file
of a project (with pairwise distinct file paths) such that no file's
globals set contains that name, resolving the project produces no
`internal_externs` entry for the name, and — provided the name does
not occur as a non-dotted `Label` item in the declaring file's
sections — the name appears in the declaring file's per-file symbols
table with visibility `External` and no section. -/
theorem claim_C5_amended (files : List (String × AssemblyFile))
    (p : String) (asm : AssemblyFile) (e : String)
    (hmem : (p, asm) ∈ files)
    (hnodup : (files.map Prod.fst).Nodup)
    (hex : e ∈ asm.externs)
    (hng : ∀ q ∈ files, e ∉ q.2.globals)
    (hnl : ∀ q ∈ sectionItems asm.sections,
      q.2 = AssemblyItem.Label e → strStartsWith e "." = true) :
    mapLookup (build_from files).internal_externs e = none ∧
    ∃ tbl, mapLookup (build_from files).symbols p = some tbl ∧
      mapLookup tbl e = some (Visibility.External, none) := by
  have hgs : mapLookup (collectGlobals files []) e = none :=
    lookup_collectGlobals_none files [] hng rfl
  constructor
  · unfold build_from resolve emptyProject
    exact lookup_resolveFold_ie_none hgs files _ rfl
  · obtain ⟨pre, post, hsplit⟩ := List.append_of_mem hmem
    have hpp : (pre.map Prod.fst ++ p :: post.map Prod.fst).Nodup := by
      rw [hsplit] at hnodup
      simpa using hnodup
    obtain ⟨-, hcons, hdisj⟩ := List.nodup_append.mp hpp
    have hpost : ∀ q ∈ post, q.1 ≠ p := by
      intro q hq hqp
      exact (List.nodup_cons.mp hcons).1
        (hqp ▸ List.mem_map_of_mem Prod.fst hq)
    unfold build_from resolve emptyProject
    rw [hsplit, List.foldl_append, List.foldl_cons]
    rw [lookup_resolveFold_symbols_pres post _ hpost]
    simp only [resolveFileStep]
    rw [mapLookup_insert_self]
    refine ⟨_, rfl, ?_⟩
    rw [lookup_scanFold_eq _ _ hnl]
    show mapLookup (asm.externs.foldl _ _) e = _
    rw [lookup_externsFold_tbl]
    simp [hex]

/-- Witness for claim C5 as amended: a project of two files, one
declaring `extern puts` with a label of its own, one empty; `puts` has
no project-internal definition. -/
theorem claim_C5_witness :
    mapLookup (build_from [("main.asm",
      { AssemblyFile.default with
        externs := ["puts"]
        sections := [(AssemblySection.Text, [AssemblyItem.Label "main"])] }),
      ("other.asm", AssemblyFile.default)]).internal_externs "puts"
      = none ∧
    ∃ tbl, mapLookup (build_from [("main.asm",
      { AssemblyFile.default with
        externs := ["puts"]
        sections := [(AssemblySection.Text, [AssemblyItem.Label "main"])] }),
      ("other.asm", AssemblyFile.default)]).symbols "main.asm"
        = some tbl ∧
      mapLookup tbl "puts" = some (Visibility.External, none) :=
  claim_C5_amended _ "main.asm"
    { AssemblyFile.default with
      externs := ["puts"]
      sections := [(AssemblySection.Text, [AssemblyItem.Label "main"])] }
    "puts" (List.mem_cons_self _ _) (by decide) (by decide)
    (by decide)
    (by
      intro q hq hlab
      simp [sectionItems] at hq
      rw [hq] at hlab
      injection hlab with hname
      exact absurd hname (by decide))

/-- Claim C1: for a project of two file models A (declares `global
foo`, defines the label `foo` in section `sec`) and B (declares
`extern foo`) under distinct paths, resolving yields `foo` in A's
per-file table with visibility `Global` tagged with `sec`, `foo` in
B's table with visibility `External` and no section, and
`internal_externs` maps `foo` to A's path — whichever order the two
files are processed in. -/
theorem claim_C1 (pA pB : String) (sec : AssemblySection) (hne : pA ≠ pB)
    (files : List (String × AssemblyFile))
    (horder : files = [(pA, c1fileA sec), (pB, c1fileB)] ∨
      files = [(pB, c1fileB), (pA, c1fileA sec)]) :
    mapLookup (build_from files).internal_externs "foo" = some pA ∧
    mapLookup (build_from files).symbols pA =
      some [("foo", (Visibility.Global, some sec))] ∧
    mapLookup (build_from files).symbols pB =
      some [("foo", (Visibility.External, none))] := by
  have hfoo : strStartsWith "foo" "." = false := rfl
  rcases horder with rfl | rfl <;>
    refine ⟨?_, ?_, ?_⟩ <;>
    simp [build_from, resolve, emptyProject, collectGlobals,
      resolveFileStep, sectionItems, scanItem, constituentsPush,
      mapInsert, mapLookup, c1fileA, c1fileB, AssemblyFile.default,
      hfoo, hne, Ne.symm hne]

/-- Witness for claim C1 at concrete paths and the `Text` section,
first processing order. -/
theorem claim_C1_witness :
    mapLookup (build_from [("a.asm", c1fileA AssemblySection.Text),
      ("b.asm", c1fileB)]).internal_externs "foo" = some "a.asm" ∧
    mapLookup (build_from [("a.asm", c1fileA AssemblySection.Text),
      ("b.asm", c1fileB)]).symbols "a.asm" =
      some [("foo", (Visibility.Global, some AssemblySection.Text))] ∧
    mapLookup (build_from [("a.asm", c1fileA AssemblySection.Text),
      ("b.asm", c1fileB)]).symbols "b.asm" =
      some [("foo", (Visibility.External, none))] :=
  claim_C1 "a.asm" "b.asm" AssemblySection.Text (by decide) _ (Or.inl rfl)

/-- Claim C3: resolving a one-file project whose section items are, in
scan order, the labels `label`, `.sub1`, `.sub2` (under any sections)
yields `symbol_constituents["label"] = [".sub1", ".sub2"]` in
encounter order, the per-file table holds `label` (tagged with the
section it was found in) and neither `.sub1` nor `.sub2` as keys. -/
theorem claim_C3 (p : String)
    (secs : List (AssemblySection × List AssemblyItem))
    (s1 s2 s3 : AssemblySection)
    (hflat : sectionItems secs =
      [(s1, .Label "label"), (s2, .Label ".sub1"), (s3, .Label ".sub2")]) :
    mapLookup (build_from [(p, labelOnlyFile secs)]).symbol_constituents
      "label" = some [".sub1", ".sub2"] ∧
    mapLookup (build_from [(p, labelOnlyFile secs)]).symbols p =
      some [("label", (Visibility.Private, some s1))] ∧
    mapLookup ((mapLookup (build_from [(p, labelOnlyFile secs)]).symbols
      p).getD []) ".sub1" = none ∧
    mapLookup ((mapLookup (build_from [(p, labelOnlyFile secs)]).symbols
      p).getD []) ".sub2" = none := by
  have hlbl : strStartsWith "label" "." = false := rfl
  have hs1 : strStartsWith ".sub1" "." = true := rfl
  have hs2 : strStartsWith ".sub2" "." = true := rfl
  refine ⟨?_, ?_, ?_, ?_⟩ <;>
    simp [build_from, resolve, emptyProject, collectGlobals,
      resolveFileStep, labelOnlyFile, hflat, scanItem, constituentsPush,
      mapInsert, mapLookup, AssemblyFile.default, hlbl, hs1, hs2]

/-- Witness for claim C3 with the three labels split across two
concrete sections. -/
theorem claim_C3_witness :
    mapLookup (build_from [("c.asm", labelOnlyFile
      [(AssemblySection.Text, [.Label "label"]),
       (AssemblySection.Data, [.Label ".sub1", .Label ".sub2"])])]
      ).symbol_constituents "label" = some [".sub1", ".sub2"] ∧
    mapLookup (build_from [("c.asm", labelOnlyFile
      [(AssemblySection.Text, [.Label "label"]),
       (AssemblySection.Data, [.Label ".sub1", .Label ".sub2"])])]
      ).symbols "c.asm" =
      some [("label", (Visibility.Private, some AssemblySection.Text))] ∧
    mapLookup ((mapLookup (build_from [("c.asm", labelOnlyFile
      [(AssemblySection.Text, [.Label "label"]),
       (AssemblySection.Data, [.Label ".sub1", .Label ".sub2"])])]
      ).symbols "c.asm").getD []) ".sub1" = none ∧
    mapLookup ((mapLookup (build_from [("c.asm", labelOnlyFile
      [(AssemblySection.Text, [.Label "label"]),
       (AssemblySection.Data, [.Label ".sub1", .Label ".sub2"])])]
      ).symbols "c.asm").getD []) ".sub2" = none :=
  claim_C3 "c.asm"
    [(AssemblySection.Text, [.Label "label"]),
     (AssemblySection.Data, [.Label ".sub1", .Label ".sub2"])]
    AssemblySection.Text AssemblySection.Data AssemblySection.Data rfl

end Asmdoc
